import Mathlib

/-!
Verification development for the QOI15 codec (src/Libraries/qoi15.hpp).

The codec's components are embedded as executable Lean functions over `Nat`
(C++ unsigned integers, with explicit `% 65536` where a `uint16_t` conversion
truncates, and `% 256` where an `int` is converted to `uint8_t`) and `Int`
(C++ signed `int`/`int32_t`).  Template parameters are instantiated as in the
source's default (`TABLE_FIRST` undefined) configuration:
`RunLength<2,3,0x00,0x07>`, `Differential<1,4,0x10,0x0F>`,
`Table<2,3,0x08,0x07>` with `hashBit = 1`, and `BitShifter<1>` except where a
claim quantifies over the shift.
-/

namespace QOI15

/-- BitShifter<shift>::Get: `value >> shift`. -/
def bitShifterGet (shift v : Nat) : Nat := v >>> shift

/-- BitShifter<shift>::Set: `value << shift`, returned as `uint16_t`
(the `int`-promoted shift result is converted back modulo 2^16). -/
def bitShifterSet (shift v : Nat) : Nat := (v <<< shift) % 65536

/-- RunLength<2,3,0x00,0x07>::CheckHeader: `(value & ~0x07) == 0x00` on a
`uint8_t` argument (so `~0x07` acts as the mask `0xF8`). -/
def rlCheckHeader (v : Nat) : Bool := (v &&& 0xF8) == 0x00

/-- Fueled helper for RunLength::Get.  The source's `while (length != 0)` loop
divides `length` by 8 each iteration, so `fuel = length` iterations always
suffice (`runLengthGetAux_congr` below makes the fuel irrelevant). -/
def runLengthGetAux : Nat → Nat → List Nat
  | 0, _ => []
  | fuel + 1, l => if l = 0 then [] else ((l &&& 0x07) ||| 0x00) :: runLengthGetAux fuel (l >>> 3)

/-- RunLength<2,3,0x00,0x07>::Get: emit `(length & 0x07) | 0x00` and shift
`length` right by 3, until `length` is zero. -/
def runLengthGet (l : Nat) : List Nat := runLengthGetAux l l

/-- Loop body of RunLength<2,3,0x00,0x07>::Set:
`length |= (value & 0x07) << shift; shift += 3` over the list. -/
def runLengthSetGo : Nat → Nat → List Nat → Nat
  | acc, _, [] => acc
  | acc, sh, v :: r => runLengthSetGo (acc ||| ((v &&& 0x07) <<< sh)) (sh + 3) r

/-- RunLength<2,3,0x00,0x07>::Set. -/
def runLengthSet (vs : List Nat) : Nat := runLengthSetGo 0 0 vs

/-- Differential<1,4,0x10,0x0F>::CheckHeader: `(value & ~0x0F) == 0x10` on a
`uint8_t` argument (so `~0x0F` acts as the mask `0xF0`). -/
def diffCheckHeader (v : Nat) : Bool := (v &&& 0xF0) == 0x10

/-- Differential::Sub: `(int)current - (int)previous`. -/
def diffSub (previous current : Nat) : Int := (current : Int) - (previous : Int)

/-- Differential<1,4,...>::IsValid: `abs(diff) <= 8 && diff != 0`
(`MaxValue = 1 << (4 - 1) = 8`). -/
def diffIsValid (d : Int) : Bool := decide (d.natAbs ≤ 8) && (d != 0)

/-- Differential<1,4,0x10,0x0F>::Get: bias the delta
(`diff + 8` if negative, else `diff + 7`), convert to `uint8_t`
(modulo 256), and OR in the header `0x10`. -/
def diffGet (d : Int) : Nat := ((if d < 0 then d + 8 else d + 7) % 256).toNat ||| 0x10

/-- Differential<1,4,0x10,0x0F>::Set: take the low four bits; values below 8
decode as `value - 8`, others as `value - 7`. -/
def diffSet (v : Nat) : Int :=
  if ((v &&& 0x0F : Nat) : Int) < 8 then ((v &&& 0x0F : Nat) : Int) - 8
  else ((v &&& 0x0F : Nat) : Int) - 7

/-- Differential::Add: `previous + diff`, returned as `uint16_t`
(conversion of the `int` sum modulo 2^16). -/
def diffAdd (previous : Nat) (d : Int) : Nat := (((previous : Int) + d) % 65536).toNat

/-- Table<2,3,0x08,0x07>::CheckHeader: `(value & ~0x07) == 0x08` on a
`uint8_t` argument. -/
def tabCheckHeader (v : Nat) : Bool := (v &&& 0xF8) == 0x08

/-- Table<2,3,0x08,0x07>::Hash with `hashBit_ = 1`: `(value >> 1) & 0x07`. -/
def tableHash (v : Nat) : Nat := (v >>> 1) &&& 0x07

/-- Table<2,3,0x08,0x07>::Set: extract the hash, `value & 0x07`. -/
def tableSet (v : Nat) : Nat := v &&& 0x07

/-- Table<2,3,...> constructor: `ref_(TableSize, 0xFFFF)` with `TableSize = 8`. -/
def tableInit : List Nat := List.replicate 8 0xFFFF

/-- Table::Refer: `ref_[hash]`.  All callers pass a hash below 8, so the
default value of `getD` is never reached. -/
def tableRefer (tab : List Nat) (h : Nat) : Nat := tab.getD h 0

/-- Table::Insert: `ref_[hash] = value`. -/
def tableInsert (tab : List Nat) (h v : Nat) : List Nat := tab.set h v

/-- Table<2,3,0x08,0x07>::Get: `0x08 | hash`. -/
def tableGet (h : Nat) : Nat := 0x08 ||| h

/-- Raw15bit::Get: `0x8000 | value`. -/
def rawGet (v : Nat) : Nat := 0x8000 ||| v

/-- Raw15bit::Set: `0x7FFF & value`. -/
def rawSet (v : Nat) : Nat := 0x7FFF &&& v

/-- Raw15bit::IsValid: `(value & 0x8000) != 0`. -/
def rawIsValid (v : Nat) : Bool := (v &&& 0x8000) != 0

/-- Chunker::Get, first component: `value & 0x1F`. -/
def chunkerGet1 (v : Nat) : Nat := v &&& 0x1F

/-- Chunker::Get, second component: `(value >> 5) & 0x1F`. -/
def chunkerGet2 (v : Nat) : Nat := (v >>> 5) &&& 0x1F

/-- Chunker::Get, third component: `(value >> 10) & 0x1F`. -/
def chunkerGet3 (v : Nat) : Nat := (v >>> 10) &&& 0x1F

/-- Chunker::Set: `first | (second << 5) | (third << 10)`, returned as
`uint16_t` (the `int`-promoted result is converted back modulo 2^16). -/
def chunkerSet (first second third : Nat) : Nat :=
  (first ||| (second <<< 5) ||| (third <<< 10)) % 65536

/-- The two kinds of values pushed into the repository: full 16-bit words
(`SpeedFirstRepository::Set(uint16_t)`) and 5-bit sub-codewords
(`SpeedFirstRepository::Set(uint8_t)`). -/
inductive Item where
  | word (w : Nat)
  | sub (v : Nat)
deriving DecidableEq

/-- State of a `SpeedFirstRepository`: the output words written so far
(`buffer_` up to `counter_`) and the pending sub-codeword queue `temp_`. -/
structure RepoSt where
  buffer : List Nat
  temp : List Nat
deriving DecidableEq

/-- The container words that SpeedFirstRepository::Flush writes: full groups
of three pending sub-codewords are packed while `tempCounter_ >= 3`, and a
trailing partial group of one or two is packed with zero padding
(`uint8_t fst[3] = {0}`). -/
def flushWords : List Nat → List Nat
  | a :: b :: c :: rest => chunkerSet a b c :: flushWords rest
  | [] => []
  | [a] => [chunkerSet a 0 0]
  | [a, b] => [chunkerSet a b 0]

/-- SpeedFirstRepository::Flush. -/
def repoFlush (s : RepoSt) : RepoSt := ⟨s.buffer ++ flushWords s.temp, []⟩

/-- SpeedFirstRepository::Set(uint16_t): flush pending sub-codewords when
`tempCounter_ > 0`, then write the word at `buffer_[counter_++]`. -/
def repoSetWord (s : RepoSt) (v : Nat) : RepoSt :=
  if s.temp.isEmpty then ⟨s.buffer ++ [v], s.temp⟩
  else ⟨(repoFlush s).buffer ++ [v], (repoFlush s).temp⟩

/-- SpeedFirstRepository::Set(uint8_t): enqueue a sub-codeword in `temp_`. -/
def repoSetSub (s : RepoSt) (v : Nat) : RepoSt := ⟨s.buffer, s.temp ++ [v]⟩

/-- Dispatch one pushed item to the matching repository entry point. -/
def repoStep (s : RepoSt) : Item → RepoSt
  | .word w => repoSetWord s w
  | .sub v => repoSetSub s v

/-- Push a sequence of items through a fresh `SpeedFirstRepository` and
perform the final `Flush`, as both codec drivers do; the result is the
output word sequence `buffer_[0..counter_)`. -/
def repoRun (items : List Item) : List Nat :=
  (repoFlush (items.foldl repoStep ⟨[], []⟩)).buffer

/-- Encoder loop state: `previous`, the pending `runLength` counter, and the
hash table `ref_`. -/
structure EncSt where
  prev : Nat
  run : Nat
  tab : List Nat
deriving DecidableEq

/-- Encoder initial state: `previous = 0xFFFF`, `runLength = 0`, table
entries all `0xFFFF`. -/
def encInit : EncSt := ⟨0xFFFF, 0, tableInit⟩

/-- One iteration of the QOI15Encoder constructor loop on input sample `y`:
downshift, extend the run on equality, otherwise flush the pending run's
sub-codewords and take the first applicable branch among Differential,
Table and Raw15bit.  Returns the new state and the items pushed into the
repository, in push order. -/
def encStep (shift : Nat) (s : EncSt) (y : Nat) : EncSt × List Item :=
  let current := bitShifterGet shift y
  if s.prev = current then (⟨s.prev, s.run + 1, s.tab⟩, [])
  else
    let runItems := (runLengthGet s.run).map Item.sub
    if diffIsValid (diffSub s.prev current) then
      (⟨current, 0, s.tab⟩, runItems ++ [Item.sub (diffGet (diffSub s.prev current))])
    else
      if tableRefer s.tab (tableHash current) = current then
        (⟨current, 0, s.tab⟩, runItems ++ [Item.sub (tableGet (tableHash current))])
      else
        (⟨current, 0, tableInsert s.tab (tableHash current) current⟩,
         runItems ++ [Item.word (rawGet current)])

/-- The encoder loop over all samples, accumulating pushed items. -/
def encProc (shift : Nat) : EncSt → List Nat → EncSt × List Item
  | s, [] => (s, [])
  | s, y :: ys =>
    let r1 := encStep shift s y
    let r2 := encProc shift r1.1 ys
    (r2.1, r1.2 ++ r2.2)

/-- Everything the encoder pushes into its repository for the remaining
input `ys` from state `e`: the loop's items followed by the final
run flush after the loop. -/
def encItemsAll (shift : Nat) (e : EncSt) (ys : List Nat) : List Item :=
  (encProc shift e ys).2 ++ (runLengthGet (encProc shift e ys).1.run).map Item.sub

/-- QOI15Encoder<1>: the output word sequence for input `Y`
(the contents of `repository_` after the final `Flush`). -/
def encode (Y : List Nat) : List Nat := repoRun (encItemsAll 1 encInit Y)

/-- Decoder state: `previous`, the pending `runLengthValues` queue, the hash
table, and the emitted output samples (the decoder's repository receives only
full words, so its `temp_` queue stays empty and it is a plain append). -/
structure DecSt where
  prev : Nat
  runVals : List Nat
  tab : List Nat
  out : List Nat
deriving DecidableEq

/-- Decoder initial state: `previous = 0xFFFF`, empty `runLengthValues`,
table entries all `0xFFFF`, no output. -/
def decInit : DecSt := ⟨0xFFFF, [], tableInit, []⟩

/-- The decoder's pending-run expansion: when `runLengthValues` is nonempty,
decode it to a length and emit that many copies of `previous << 1`. -/
def runFlush (s : DecSt) : DecSt :=
  if s.runVals.isEmpty then s
  else ⟨s.prev, [], s.tab,
        s.out ++ List.replicate (runLengthSet s.runVals) (bitShifterSet 1 s.prev)⟩

/-- Processing of one 5-bit sub-codeword popped from `leftovers`: the three
sequential header tests of the decoder loop, in source order. -/
def subStep (s : DecSt) (v : Nat) : DecSt :=
  let s1 := if rlCheckHeader v then ⟨s.prev, s.runVals ++ [v], s.tab, s.out⟩ else runFlush s
  let s2 :=
    if diffCheckHeader v then
      ⟨diffAdd s1.prev (diffSet v), s1.runVals, s1.tab,
       s1.out ++ [bitShifterSet 1 (diffAdd s1.prev (diffSet v))]⟩
    else s1
  if tabCheckHeader v then
    ⟨tableRefer s2.tab (tableSet v), s2.runVals, s2.tab,
     s2.out ++ [bitShifterSet 1 (tableRefer s2.tab (tableSet v))]⟩
  else s2

/-- Processing of one literal container word: flush any pending run, then
recover the 15-bit value, insert it into the table, emit it upshifted, and
update `previous`. -/
def litStep (s : DecSt) (w : Nat) : DecSt :=
  ⟨rawSet w, (runFlush s).runVals,
   tableInsert (runFlush s).tab (tableHash (rawSet w)) (rawSet w),
   (runFlush s).out ++ [bitShifterSet 1 (rawSet w)]⟩

/-- Fueled form of the decoder's main `while (counter < size || leftovers.size() > 0)`
loop: a pending leftover sub-codeword is processed first; otherwise the next
input word is consumed, literal containers directly and packed containers by
enqueuing their three 5-bit fields.  Each iteration strictly decreases
`leftovers.size() + 4 * (size - counter)`, so that much fuel suffices
(`decodeLoopAux_congr` below makes the fuel irrelevant). -/
def decodeLoopAux : Nat → List Nat → List Nat → DecSt → DecSt
  | 0, _, _, s => s
  | fuel + 1, l :: ls, ws, s => decodeLoopAux fuel ls ws (subStep s l)
  | _ + 1, [], [], s => s
  | fuel + 1, [], w :: ws, s =>
    if rawIsValid w then decodeLoopAux fuel [] ws (litStep s w)
    else decodeLoopAux fuel [chunkerGet1 w, chunkerGet2 w, chunkerGet3 w] ws s

/-- The decoder's main loop from leftovers `ls`, remaining input `ws` and
state `s`. -/
def decodeLoop (ls ws : List Nat) (s : DecSt) : DecSt :=
  decodeLoopAux (ls.length + 4 * ws.length) ls ws s

/-- QOI15Decoder: the emitted sample sequence for input words `ws` (the main
loop followed by the final pending-run flush).  The `outputSize` constructor
argument only sizes the output buffer and does not influence the samples
emitted, so it does not appear here. -/
def decode (ws : List Nat) : List Nat := (runFlush (decodeLoop [] ws decInit)).out

/-- The decoder's unit of work in flattened form: either one 5-bit
sub-codeword (taken from `leftovers`) or one literal container word. -/
inductive FlatTok where
  | fsub (v : Nat)
  | flit (w : Nat)
deriving DecidableEq

/-- Flatten a word sequence into the decoder's processing order: a literal
word stands alone, a packed word contributes its three 5-bit fields in
low-to-high order. -/
def flattenWords : List Nat → List FlatTok
  | [] => []
  | w :: ws =>
    if rawIsValid w then FlatTok.flit w :: flattenWords ws
    else FlatTok.fsub (chunkerGet1 w) :: FlatTok.fsub (chunkerGet2 w) ::
         FlatTok.fsub (chunkerGet3 w) :: flattenWords ws

/-- Process a flattened token stream with the decoder's two step functions. -/
def processFlat : List FlatTok → DecSt → DecSt
  | [], s => s
  | FlatTok.fsub v :: r, s => processFlat r (subStep s v)
  | FlatTok.flit w :: r, s => processFlat r (litStep s w)

/-- The flattened stream that the repository's packing produces from an item
sequence when `t` sub-codewords are already pending: sub-codewords pass
through, and whenever a literal word forces a flush (and at the end of the
stream) the partial group of pending sub-codewords is completed with zeros. -/
def padStream : Nat → List Item → List FlatTok
  | t, [] => List.replicate ((3 - t % 3) % 3) (FlatTok.fsub 0)
  | t, Item.sub v :: r => FlatTok.fsub v :: padStream (t + 1) r
  | t, Item.word w :: r =>
    List.replicate ((3 - t % 3) % 3) (FlatTok.fsub 0) ++ FlatTok.flit w :: padStream 0 r

/-- Validity of a pushed item: sub-codewords fit in 5 bits, and literal words
are `Raw15bit::Get` images of 15-bit samples. -/
def validItem : Item → Prop
  | Item.sub v => v ≤ 31
  | Item.word w => ∃ c, c ≤ 0x7FFF ∧ w = rawGet c

/-- Shape of a packed container: `Chunker::Set` of three 5-bit sub-codewords. -/
def wordIsPacked (w : Nat) : Prop :=
  ∃ a b c, a ≤ 31 ∧ b ≤ 31 ∧ c ≤ 31 ∧ w = chunkerSet a b c

/-- Shape of a literal container: `Raw15bit::Get` of a 15-bit sample. -/
def wordIsLiteral (w : Nat) : Prop :=
  ∃ s, s ≤ 32767 ∧ w = rawGet s

/-- Specification-side padding: complete a sub-codeword list to a multiple of
three with zeros. -/
def padToTriple (l : List Nat) : List Nat :=
  l ++ List.replicate ((3 - l.length % 3) % 3) 0

/-- Specification-side packing of complete triples only. -/
def packTriples : List Nat → List Nat
  | a :: b :: c :: r => chunkerSet a b c :: packTriples r
  | _ => []

/-! Arithmetic toolkit: the bit operations of the source, rewritten to
division, remainder and addition where operands are known disjoint. -/

lemma and_mod8 (x : Nat) : x &&& 7 = x % 8 := by
  have h := Nat.and_pow_two_sub_one_eq_mod x 3
  norm_num at h
  exact h

lemma and_mod16 (x : Nat) : x &&& 15 = x % 16 := by
  have h := Nat.and_pow_two_sub_one_eq_mod x 4
  norm_num at h
  exact h

lemma and_mod32 (x : Nat) : x &&& 31 = x % 32 := by
  have h := Nat.and_pow_two_sub_one_eq_mod x 5
  norm_num at h
  exact h

lemma and_mod32768 (x : Nat) : x &&& 32767 = x % 32768 := by
  have h := Nat.and_pow_two_sub_one_eq_mod x 15
  norm_num at h
  exact h

lemma shr_eq_div (x k : Nat) : x >>> k = x / 2 ^ k := Nat.shiftRight_eq_div_pow x k

lemma shl_eq_mul (x k : Nat) : x <<< k = x * 2 ^ k := Nat.shiftLeft_eq x k

lemma testBit_add_mul_pow (a b k i : Nat) (ha : a < 2 ^ k) :
    (a + b * 2 ^ k).testBit i = if i < k then a.testBit i else b.testBit (i - k) := by
  by_cases h : i < k
  · simp only [h, if_true]
    rw [Nat.testBit_to_div_mod, Nat.testBit_to_div_mod]
    have hk : (2 : Nat) ^ k = 2 ^ (k - i - 1) * 2 * 2 ^ i := by
      rw [Nat.mul_assoc, ← Nat.pow_succ']
      rw [← Nat.pow_add]
      congr 1
      omega
    rw [hk, ← Nat.mul_assoc, Nat.add_mul_div_right _ _ (Nat.two_pow_pos i)]
    rw [← Nat.mul_assoc, Nat.add_mul_mod_self_right]
  · simp only [h, if_false]
    rw [Nat.testBit_to_div_mod, Nat.testBit_to_div_mod]
    have hk : (2 : Nat) ^ i = 2 ^ k * 2 ^ (i - k) := by
      rw [← Nat.pow_add]
      congr 1
      omega
    rw [hk, ← Nat.div_div_eq_div_mul, Nat.mul_comm b (2 ^ k),
        Nat.add_mul_div_left _ _ (Nat.two_pow_pos k),
        Nat.div_eq_of_lt ha, Nat.zero_add]

lemma lor_mul_pow_eq_add (a b k : Nat) (ha : a < 2 ^ k) :
    a ||| b * 2 ^ k = a + b * 2 ^ k := by
  apply Nat.eq_of_testBit_eq
  intro i
  rw [Nat.testBit_lor, testBit_add_mul_pow a b k i ha]
  by_cases h : i < k
  · have hb : (b * 2 ^ k).testBit i = false := by
      rw [← Nat.shiftLeft_eq, Nat.testBit_shiftLeft]
      simp [Nat.not_le.mpr h]
    simp [h, hb]
  · have hak : a < 2 ^ i :=
      lt_of_lt_of_le ha (Nat.pow_le_pow_right (by omega) (Nat.le_of_not_lt h))
    have hb : (b * 2 ^ k).testBit i = b.testBit (i - k) := by
      rw [← Nat.shiftLeft_eq, Nat.testBit_shiftLeft]
      simp [Nat.le_of_not_lt h]
    simp [h, hb, Nat.testBit_lt_two_pow hak]

lemma lor_sixteen (x : Nat) (h : x ≤ 15) : x ||| 16 = x + 16 := by
  have h16 : (16 : Nat) = 1 * 2 ^ 4 := by norm_num
  rw [h16, lor_mul_pow_eq_add x 1 4 (by omega)]

lemma lor_eight (h : Nat) (hh : h ≤ 7) : 8 ||| h = h + 8 := by
  have h8 : (8 : Nat) = 1 * 2 ^ 3 := by norm_num
  rw [Nat.lor_comm, h8, lor_mul_pow_eq_add h 1 3 (by omega)]

lemma rawGet_eq (c : Nat) (hc : c ≤ 32767) : rawGet c = c + 32768 := by
  have h : (32768 : Nat) = 1 * 2 ^ 15 := by norm_num
  rw [rawGet, Nat.lor_comm, h, lor_mul_pow_eq_add c 1 15 (by omega)]

lemma rawIsValid_eq_false (x : Nat) (hx : x < 32768) : rawIsValid x = false := by
  have h : x &&& 32768 = 0 := by
    have h2 : (32768 : Nat) = 2 ^ 15 := by norm_num
    rw [h2, Nat.and_two_pow, Nat.testBit_lt_two_pow (by omega)]
    rfl
  simp [rawIsValid, h]

lemma rawIsValid_rawGet (c : Nat) (hc : c ≤ 32767) : rawIsValid (rawGet c) = true := by
  rw [rawGet_eq c hc]
  have h : (c + 32768) &&& 32768 = 32768 := by
    have h2 : (32768 : Nat) = 2 ^ 15 := by norm_num
    rw [h2, Nat.and_two_pow]
    have h3 : c + 2 ^ 15 = c + 1 * 2 ^ 15 := by ring
    rw [h3, testBit_add_mul_pow c 1 15 15 (by omega)]
    norm_num
  simp [rawIsValid, h]

lemma rawSet_rawGet (c : Nat) (hc : c ≤ 32767) : rawSet (rawGet c) = c := by
  rw [rawGet_eq c hc, rawSet, Nat.land_comm, and_mod32768]
  omega

lemma chunkerSet_eq (a b c : Nat) (hb1 : a ≤ 31) (hb2 : b ≤ 31) (hb3 : c ≤ 31) :
    chunkerSet a b c = a + b * 32 + c * 1024 := by
  rw [chunkerSet, shl_eq_mul, shl_eq_mul]
  have e5 : (2 : Nat) ^ 5 = 32 := by norm_num
  have e10 : (2 : Nat) ^ 10 = 1024 := by norm_num
  rw [lor_mul_pow_eq_add a b 5 (by omega)]
  rw [e5, ← e10, lor_mul_pow_eq_add _ c 10 (by rw [e5] at *; omega), e10]
  have : a + b * 32 + c * 1024 < 65536 := by omega
  exact Nat.mod_eq_of_lt this

lemma chunkerSet_le (a b c : Nat) (hb1 : a ≤ 31) (hb2 : b ≤ 31) (hb3 : c ≤ 31) :
    chunkerSet a b c ≤ 32767 := by
  rw [chunkerSet_eq a b c hb1 hb2 hb3]
  omega

lemma chunkerGet1_set (a b c : Nat) (hb1 : a ≤ 31) (hb2 : b ≤ 31) (hb3 : c ≤ 31) :
    chunkerGet1 (chunkerSet a b c) = a := by
  rw [chunkerSet_eq a b c hb1 hb2 hb3, chunkerGet1, and_mod32]
  omega

lemma chunkerGet2_set (a b c : Nat) (hb1 : a ≤ 31) (hb2 : b ≤ 31) (hb3 : c ≤ 31) :
    chunkerGet2 (chunkerSet a b c) = b := by
  rw [chunkerSet_eq a b c hb1 hb2 hb3, chunkerGet2, shr_eq_div, and_mod32]
  norm_num
  omega

lemma chunkerGet3_set (a b c : Nat) (hb1 : a ≤ 31) (hb2 : b ≤ 31) (hb3 : c ≤ 31) :
    chunkerGet3 (chunkerSet a b c) = c := by
  rw [chunkerSet_eq a b c hb1 hb2 hb3, chunkerGet3, shr_eq_div, and_mod32]
  norm_num
  omega

lemma tableHash_lt (v : Nat) : tableHash v < 8 := by
  rw [tableHash, and_mod8]
  omega

lemma tableGet_eq (h : Nat) (hh : h < 8) : tableGet h = h + 8 := by
  rw [tableGet]
  exact lor_eight h (by omega)

lemma tableSet_tableGet (h : Nat) (hh : h < 8) : tableSet (tableGet h) = h := by
  rw [tableGet_eq h hh, tableSet, and_mod8]
  omega

lemma tableRefer_init (h : Nat) (hh : h < 8) : tableRefer tableInit h = 0xFFFF := by
  revert hh
  revert h
  decide

lemma diffGet_eq (d : Int) (h1 : d.natAbs ≤ 8) (h2 : d ≠ 0) :
    diffGet d = (if d < 0 then d + 8 else d + 7).toNat + 16 := by
  have hb : 0 ≤ (if d < 0 then d + 8 else d + 7) ∧ (if d < 0 then d + 8 else d + 7) ≤ 15 := by
    split_ifs <;> omega
  rw [diffGet, Int.emod_eq_of_lt hb.1 (by omega)]
  exact lor_sixteen _ (by omega)

lemma diffGet_bounds (d : Int) (h1 : d.natAbs ≤ 8) (h2 : d ≠ 0) :
    16 ≤ diffGet d ∧ diffGet d < 32 := by
  rw [diffGet_eq d h1 h2]
  constructor
  · omega
  · split_ifs <;> omega

lemma diffSet_diffGet (d : Int) (h1 : d.natAbs ≤ 8) (h2 : d ≠ 0) :
    diffSet (diffGet d) = d := by
  rw [diffGet_eq d h1 h2]
  simp only [diffSet, and_mod16]
  split_ifs <;> omega

lemma diffAdd_sub (p c : Nat) (hc : c < 65536) : diffAdd p (diffSub p c) = c := by
  simp only [diffAdd, diffSub]
  omega

lemma class_lt8 : ∀ v < 8,
    rlCheckHeader v = true ∧ diffCheckHeader v = false ∧ tabCheckHeader v = false := by
  decide

lemma class_tab : ∀ v < 16, 8 ≤ v →
    rlCheckHeader v = false ∧ diffCheckHeader v = false ∧ tabCheckHeader v = true := by
  decide

lemma class_diff : ∀ v < 32, 16 ≤ v →
    rlCheckHeader v = false ∧ diffCheckHeader v = true ∧ tabCheckHeader v = false := by
  decide

/-! RunLength facts: the fuel parameter is irrelevant, the emitted digits are
the little-endian base-8 digits of the length, and Set inverts Get. -/

lemma runLengthGetAux_congr : ∀ f1 f2 l, l ≤ f1 → l ≤ f2 →
    runLengthGetAux f1 l = runLengthGetAux f2 l := by
  intro f1
  induction f1 with
  | zero =>
    intro f2 l h1 h2
    have : l = 0 := by omega
    subst this
    cases f2 <;> simp [runLengthGetAux]
  | succ f ih =>
    intro f2 l h1 h2
    cases f2 with
    | zero =>
      have : l = 0 := by omega
      subst this
      simp [runLengthGetAux]
    | succ g =>
      by_cases hl : l = 0
      · subst hl
        simp [runLengthGetAux]
      · simp only [runLengthGetAux, if_neg hl]
        have hd : l >>> 3 < l := by
          rw [shr_eq_div]
          norm_num
          omega
        exact congrArg _ (ih g (l >>> 3) (by omega) (by omega))

lemma runLengthGet_zero : runLengthGet 0 = [] := rfl

lemma runLengthGet_pos (l : Nat) (h : l ≠ 0) :
    runLengthGet l = (l &&& 7) :: runLengthGet (l >>> 3) := by
  cases l with
  | zero => exact absurd rfl h
  | succ m =>
    show runLengthGetAux (m + 1) (m + 1) = _
    rw [runLengthGetAux, if_neg h]
    rw [Nat.or_zero]
    refine congrArg _ ?_
    have hd : (m + 1) >>> 3 < m + 1 := by
      rw [shr_eq_div]
      omega
    exact runLengthGetAux_congr m ((m + 1) >>> 3) ((m + 1) >>> 3) (by omega) (le_refl _)

lemma runLengthGet_digits_lt (l : Nat) : ∀ v ∈ runLengthGet l, v < 8 := by
  induction l using Nat.strong_induction_on with
  | _ l ih =>
    by_cases h : l = 0
    · subst h
      simp [runLengthGet_zero]
    · rw [runLengthGet_pos l h]
      intro v hv
      rcases List.mem_cons.mp hv with h1 | h2
      · subst h1
        rw [and_mod8]
        omega
      · have hd : l >>> 3 < l := by
          rw [shr_eq_div]
          omega
        exact ih (l >>> 3) hd v h2

lemma runLengthSetGo_get (n : Nat) : ∀ acc sh,
    runLengthSetGo acc sh (runLengthGet n) = acc ||| (n <<< sh) := by
  induction n using Nat.strong_induction_on with
  | _ n ih =>
    intro acc sh
    by_cases h : n = 0
    · subst h
      simp [runLengthGet_zero, runLengthSetGo, Nat.zero_shiftLeft]
    · rw [runLengthGet_pos n h]
      rw [runLengthSetGo]
      have hd : n >>> 3 < n := by
        rw [shr_eq_div]
        omega
      rw [ih (n >>> 3) hd]
      have hmask : (n &&& 7) &&& 7 = n &&& 7 := by
        rw [and_mod8, and_mod8]
        omega
      rw [hmask, Nat.lor_assoc]
      refine congrArg _ ?_
      rw [and_mod8, shr_eq_div, shl_eq_mul, shl_eq_mul, shl_eq_mul]
      norm_num
      have hp : (2 : Nat) ^ (sh + 3) = 2 ^ sh * 8 := by
        rw [pow_add]
        norm_num
      have h1 : n % 8 * 2 ^ sh < 2 ^ (sh + 3) := by
        rw [hp]
        have h2 := Nat.two_pow_pos sh
        nlinarith [Nat.mod_lt n (show 0 < 8 by omega)]
      rw [lor_mul_pow_eq_add _ _ _ h1]
      have hn : n % 8 + n / 8 * 8 = n := by omega
      calc n % 8 * 2 ^ sh + n / 8 * 2 ^ (sh + 3)
          = (n % 8 + n / 8 * 8) * 2 ^ sh := by rw [hp]; ring
        _ = n * 2 ^ sh := by rw [hn]

lemma runLengthSet_get (n : Nat) : runLengthSet (runLengthGet n) = n := by
  rw [runLengthSet, runLengthSetGo_get n 0 0]
  simp [Nat.shiftLeft_zero]

lemma runLengthSetGo_zeros : ∀ k acc sh, runLengthSetGo acc sh (List.replicate k 0) = acc := by
  intro k
  induction k with
  | zero => intro acc sh; rfl
  | succ m ih =>
    intro acc sh
    show runLengthSetGo acc sh (0 :: List.replicate m 0) = acc
    rw [runLengthSetGo]
    have h0 : (0 &&& 7) <<< sh = 0 := by
      rw [shl_eq_mul]
      norm_num
    rw [h0, Nat.or_zero]
    exact ih acc (sh + 3)

lemma runLengthSetGo_append_zeros : ∀ vs k acc sh,
    runLengthSetGo acc sh (vs ++ List.replicate k 0) = runLengthSetGo acc sh vs := by
  intro vs
  induction vs with
  | nil =>
    intro k acc sh
    rw [List.nil_append]
    exact runLengthSetGo_zeros k acc sh
  | cons v r ih =>
    intro k acc sh
    rw [List.cons_append, runLengthSetGo, runLengthSetGo]
    exact ih k _ _

lemma runLengthSet_append_zeros (vs : List Nat) (k : Nat) :
    runLengthSet (vs ++ List.replicate k 0) = runLengthSet vs :=
  runLengthSetGo_append_zeros vs k 0 0

lemma runLengthGet_ne_nil (l : Nat) (h : 1 ≤ l) : runLengthGet l ≠ [] := by
  rw [runLengthGet_pos l (by omega)]
  simp

lemma runLengthGet_getLast : ∀ l, 1 ≤ l → (runLengthGet l).getLast? ≠ some 0 := by
  intro l
  induction l using Nat.strong_induction_on with
  | _ l ih =>
    intro hl
    by_cases h8 : l < 8
    · rw [runLengthGet_pos l (by omega)]
      have h0 : l >>> 3 = 0 := by
        rw [shr_eq_div]
        omega
      rw [h0, runLengthGet_zero]
      rw [and_mod8]
      simp
      omega
    · rw [runLengthGet_pos l (by omega)]
      have h1 : 1 ≤ l >>> 3 := by
        rw [shr_eq_div]
        omega
      have hd : l >>> 3 < l := by
        rw [shr_eq_div]
        omega
      rcases hne : runLengthGet (l >>> 3) with _ | ⟨x, xs⟩
      · exact absurd hne (runLengthGet_ne_nil _ h1)
      · rw [List.getLast?_cons_cons]
        rw [← hne]
        exact ih (l >>> 3) hd h1

/-! Decoder step characterizations. -/

lemma runFlush_eq (s : DecSt) : runFlush s =
    ⟨s.prev, [], s.tab,
     s.out ++ List.replicate (runLengthSet s.runVals) (bitShifterSet 1 s.prev)⟩ := by
  rcases s with ⟨p, rv, tb, o⟩
  cases rv with
  | nil => simp [runFlush, runLengthSet, runLengthSetGo]
  | cons a r => simp [runFlush]

lemma subStep_rl (s : DecSt) (v : Nat) (hv : v < 8) :
    subStep s v = ⟨s.prev, s.runVals ++ [v], s.tab, s.out⟩ := by
  obtain ⟨h1, h2, h3⟩ := class_lt8 v hv
  simp [subStep, h1, h2, h3]

lemma subStep_diff (s : DecSt) (v : Nat) (h16 : 16 ≤ v) (h31 : v < 32) :
    subStep s v = ⟨diffAdd s.prev (diffSet v), [], s.tab,
      (s.out ++ List.replicate (runLengthSet s.runVals) (bitShifterSet 1 s.prev)) ++
        [bitShifterSet 1 (diffAdd s.prev (diffSet v))]⟩ := by
  obtain ⟨h1, h2, h3⟩ := class_diff v h31 h16
  simp [subStep, h1, h2, h3, runFlush_eq]

lemma subStep_tab (s : DecSt) (v : Nat) (h8 : 8 ≤ v) (h15 : v < 16) :
    subStep s v = ⟨tableRefer s.tab (tableSet v), [], s.tab,
      (s.out ++ List.replicate (runLengthSet s.runVals) (bitShifterSet 1 s.prev)) ++
        [bitShifterSet 1 (tableRefer s.tab (tableSet v))]⟩ := by
  obtain ⟨h1, h2, h3⟩ := class_tab v h15 h8
  simp [subStep, h1, h2, h3, runFlush_eq]

lemma litStep_eq (s : DecSt) (w : Nat) :
    litStep s w = ⟨rawSet w, [], tableInsert s.tab (tableHash (rawSet w)) (rawSet w),
      (s.out ++ List.replicate (runLengthSet s.runVals) (bitShifterSet 1 s.prev)) ++
        [bitShifterSet 1 (rawSet w)]⟩ := by
  simp [litStep, runFlush_eq]

/-! The decoder's leftover-queue loop is equivalent to processing the
flattened token stream. -/

lemma decodeLoopAux_congr : ∀ f1 f2 ls ws s,
    ls.length + 4 * ws.length ≤ f1 → ls.length + 4 * ws.length ≤ f2 →
    decodeLoopAux f1 ls ws s = decodeLoopAux f2 ls ws s := by
  intro f1
  induction f1 with
  | zero =>
    intro f2 ls ws s h1 h2
    have hls : ls = [] := List.eq_nil_of_length_eq_zero (by omega)
    have hws : ws = [] := List.eq_nil_of_length_eq_zero (by omega)
    subst hls
    subst hws
    cases f2 <;> rfl
  | succ f ih =>
    intro f2 ls ws s h1 h2
    cases f2 with
    | zero =>
      have hls : ls = [] := List.eq_nil_of_length_eq_zero (by omega)
      have hws : ws = [] := List.eq_nil_of_length_eq_zero (by omega)
      subst hls
      subst hws
      rfl
    | succ g =>
      cases ls with
      | cons l ls =>
        show decodeLoopAux f ls ws (subStep s l) = decodeLoopAux g ls ws (subStep s l)
        apply ih
        · simp only [List.length_cons] at h1
          omega
        · simp only [List.length_cons] at h2
          omega
      | nil =>
        cases ws with
        | nil => rfl
        | cons w ws =>
          simp only [List.length_nil, List.length_cons] at h1 h2
          by_cases hb : rawIsValid w
          · show (if rawIsValid w then decodeLoopAux f [] ws (litStep s w) else _)
                = (if rawIsValid w then decodeLoopAux g [] ws (litStep s w) else _)
            rw [if_pos hb, if_pos hb]
            apply ih
            · simp only [List.length_nil]
              omega
            · simp only [List.length_nil]
              omega
          · show (if rawIsValid w then _ else
                    decodeLoopAux f [chunkerGet1 w, chunkerGet2 w, chunkerGet3 w] ws s)
                = (if rawIsValid w then _ else
                    decodeLoopAux g [chunkerGet1 w, chunkerGet2 w, chunkerGet3 w] ws s)
            rw [if_neg hb, if_neg hb]
            apply ih
            · simp only [List.length_cons, List.length_nil]
              omega
            · simp only [List.length_cons, List.length_nil]
              omega

lemma decodeLoop_cons (l : Nat) (ls ws : List Nat) (s : DecSt) :
    decodeLoop (l :: ls) ws s = decodeLoop ls ws (subStep s l) := by
  unfold decodeLoop
  have h : (l :: ls).length + 4 * ws.length = (ls.length + 4 * ws.length) + 1 := by
    simp only [List.length_cons]
    omega
  rw [h]
  rfl

lemma decodeLoop_nil_nil (s : DecSt) : decodeLoop [] [] s = s := rfl

lemma decodeLoop_word (w : Nat) (ws : List Nat) (s : DecSt) :
    decodeLoop [] (w :: ws) s =
      if rawIsValid w then decodeLoop [] ws (litStep s w)
      else decodeLoop [chunkerGet1 w, chunkerGet2 w, chunkerGet3 w] ws s := by
  unfold decodeLoop
  have h : ([] : List Nat).length + 4 * (w :: ws).length = (3 + 4 * ws.length) + 1 := by
    simp only [List.length_nil, List.length_cons]
    omega
  rw [h]
  show (if rawIsValid w then decodeLoopAux (3 + 4 * ws.length) [] ws (litStep s w)
        else decodeLoopAux (3 + 4 * ws.length) [chunkerGet1 w, chunkerGet2 w, chunkerGet3 w] ws s)
      = _
  by_cases hb : rawIsValid w
  · rw [if_pos hb, if_pos hb]
    apply decodeLoopAux_congr
    · simp only [List.length_nil]
      omega
    · simp only [List.length_nil]
      omega
  · rw [if_neg hb, if_neg hb]
    apply decodeLoopAux_congr
    · simp only [List.length_cons, List.length_nil]
      omega
    · simp only [List.length_cons, List.length_nil]
      omega

lemma decodeLoop_processFlat : ∀ ws ls s,
    decodeLoop ls ws s = processFlat (ls.map FlatTok.fsub ++ flattenWords ws) s := by
  intro ws
  induction ws with
  | nil =>
    intro ls
    induction ls with
    | nil => intro s; rfl
    | cons l ls ihl =>
      intro s
      rw [decodeLoop_cons, ihl (subStep s l)]
      simp only [List.map_cons, List.cons_append, List.append_eq, processFlat]
  | cons w ws ihw =>
    intro ls
    induction ls with
    | nil =>
      intro s
      rw [decodeLoop_word]
      by_cases hb : rawIsValid w
      · rw [if_pos hb]
        rw [ihw [] (litStep s w)]
        simp only [flattenWords, if_pos hb, List.map_nil, List.nil_append, processFlat]
      · rw [if_neg hb]
        rw [ihw [chunkerGet1 w, chunkerGet2 w, chunkerGet3 w] s]
        simp only [flattenWords, if_neg hb, List.map_cons, List.map_nil, List.nil_append,
          List.cons_append, List.append_eq, processFlat]
    | cons l ls ihl =>
      intro s
      rw [decodeLoop_cons, ihl (subStep s l)]
      simp only [List.map_cons, List.cons_append, List.append_eq, processFlat]

lemma decode_processFlat (ws : List Nat) :
    decode ws = (runFlush (processFlat (flattenWords ws) decInit)).out := by
  rw [decode, decodeLoop_processFlat ws [] decInit]
  rfl

/-! Flattening of the repository's output: packing then unpacking is the
identity on valid sub-codewords, with the padding zeros made explicit. -/

lemma flattenWords_append (xs ys : List Nat) :
    flattenWords (xs ++ ys) = flattenWords xs ++ flattenWords ys := by
  induction xs with
  | nil => rfl
  | cons x xs ih =>
    by_cases hb : rawIsValid x
    · simp [flattenWords, hb, ih]
    · simp [flattenWords, hb, ih]

lemma flattenWords_chunk (a b c : Nat) (ha : a ≤ 31) (hb : b ≤ 31) (hc : c ≤ 31) :
    flattenWords [chunkerSet a b c] = [FlatTok.fsub a, FlatTok.fsub b, FlatTok.fsub c] := by
  have hle := chunkerSet_le a b c ha hb hc
  simp [flattenWords, rawIsValid_eq_false (chunkerSet a b c) (by omega),
    chunkerGet1_set a b c ha hb hc, chunkerGet2_set a b c ha hb hc,
    chunkerGet3_set a b c ha hb hc]

lemma flushWords_flatten : ∀ n temp, temp.length ≤ n → (∀ v ∈ temp, v ≤ 31) →
    flattenWords (flushWords temp) =
      temp.map FlatTok.fsub ++ List.replicate ((3 - temp.length % 3) % 3) (FlatTok.fsub 0) := by
  intro n
  induction n with
  | zero =>
    intro temp hn hv
    have : temp = [] := by cases temp <;> simp_all
    subst this
    rfl
  | succ n ih =>
    intro temp hn hv
    match temp with
    | [] => rfl
    | [a] =>
      have ha : a ≤ 31 := hv a (by simp)
      show flattenWords [chunkerSet a 0 0] = _
      rw [flattenWords_chunk a 0 0 ha (by omega) (by omega)]
      simp
    | [a, b] =>
      have ha : a ≤ 31 := hv a (by simp)
      have hb : b ≤ 31 := hv b (by simp)
      show flattenWords [chunkerSet a b 0] = _
      rw [flattenWords_chunk a b 0 ha hb (by omega)]
      simp
    | a :: b :: c :: rest =>
      have ha : a ≤ 31 := hv a (by simp)
      have hb : b ≤ 31 := hv b (by simp)
      have hc : c ≤ 31 := hv c (by simp)
      show flattenWords (chunkerSet a b c :: flushWords rest) = _
      have hsplit : chunkerSet a b c :: flushWords rest
          = [chunkerSet a b c] ++ flushWords rest := rfl
      rw [hsplit, flattenWords_append, flattenWords_chunk a b c ha hb hc]
      rw [ih rest (by simp at hn; omega) (fun v hvm => hv v (by simp [hvm]))]
      simp only [List.length_cons, List.map_cons, List.cons_append, List.nil_append]
      have hmod : (rest.length + 1 + 1 + 1) % 3 = rest.length % 3 := by omega
      rw [hmod]

lemma repoSetWord_eq (buf temp : List Nat) (w : Nat) :
    repoSetWord ⟨buf, temp⟩ w = ⟨buf ++ flushWords temp ++ [w], []⟩ := by
  cases temp with
  | nil => simp [repoSetWord, flushWords]
  | cons a r => simp [repoSetWord, repoFlush]

lemma padStream_subs : ∀ (vs : List Nat) (t : Nat) (r : List Item),
    padStream t (vs.map Item.sub ++ r) = vs.map FlatTok.fsub ++ padStream (t + vs.length) r := by
  intro vs
  induction vs with
  | nil => intro t r; simp
  | cons v vs ih =>
    intro t r
    simp only [List.map_cons, List.cons_append, List.append_eq, padStream, List.length_cons]
    rw [ih (t + 1) r]
    have h : t + 1 + vs.length = t + (vs.length + 1) := by omega
    rw [h]

lemma repoFoldl_flatten : ∀ (items : List Item) (buf temp : List Nat),
    (∀ v ∈ temp, v ≤ 31) → (∀ it ∈ items, validItem it) →
    flattenWords ((repoFlush (items.foldl repoStep ⟨buf, temp⟩)).buffer)
      = flattenWords buf ++ temp.map FlatTok.fsub ++ padStream temp.length items := by
  intro items
  induction items with
  | nil =>
    intro buf temp htemp hit
    show flattenWords (buf ++ flushWords temp) = _
    rw [flattenWords_append, flushWords_flatten temp.length temp (le_refl _) htemp]
    simp [padStream, List.append_assoc]
  | cons it rest ih =>
    intro buf temp htemp hit
    cases it with
    | sub v =>
      have hv : v ≤ 31 := hit (Item.sub v) (by simp)
      show flattenWords ((repoFlush (rest.foldl repoStep ⟨buf, temp ++ [v]⟩)).buffer) = _
      rw [ih buf (temp ++ [v])
        (by intro x hx; rcases List.mem_append.mp hx with h | h
            · exact htemp x h
            · simp at h; omega)
        (fun x hx => hit x (by simp [hx]))]
      simp only [List.map_append, List.map_cons, List.map_nil, List.length_append,
        List.length_cons, List.length_nil, padStream, List.append_assoc, List.cons_append,
        List.nil_append]
    | word w =>
      obtain ⟨c, hc, hw⟩ := hit (Item.word w) (by simp)
      have hlistw : flattenWords [w] = [FlatTok.flit w] := by
        simp [flattenWords, hw, rawIsValid_rawGet c hc]
      show flattenWords ((repoFlush (rest.foldl repoStep (repoSetWord ⟨buf, temp⟩ w))).buffer) = _
      rw [repoSetWord_eq buf temp w]
      rw [ih (buf ++ flushWords temp ++ [w]) [] (by simp)
        (fun x hx => hit x (by simp [hx]))]
      rw [flattenWords_append, flattenWords_append, hlistw,
          flushWords_flatten temp.length temp (le_refl _) htemp]
      simp only [padStream, List.map_nil, List.length_nil, List.append_assoc, List.cons_append,
        List.nil_append]

lemma repoRun_flatten (items : List Item) (h : ∀ it ∈ items, validItem it) :
    flattenWords (repoRun items) = padStream 0 items := by
  rw [repoRun]
  have := repoFoldl_flatten items [] [] (by simp) h
  simpa using this

/-! Branch equations for one encoder iteration, and item validity. -/

lemma encStep_run (shift : Nat) (e : EncSt) (y : Nat)
    (h : e.prev = bitShifterGet shift y) :
    encStep shift e y = (⟨e.prev, e.run + 1, e.tab⟩, []) := by
  simp [encStep, h]

lemma encStep_diffb (shift : Nat) (e : EncSt) (y : Nat)
    (h1 : e.prev ≠ bitShifterGet shift y)
    (h2 : diffIsValid (diffSub e.prev (bitShifterGet shift y)) = true) :
    encStep shift e y = (⟨bitShifterGet shift y, 0, e.tab⟩,
      (runLengthGet e.run).map Item.sub ++
        [Item.sub (diffGet (diffSub e.prev (bitShifterGet shift y)))]) := by
  simp [encStep, h1, h2]

lemma encStep_tabhit (shift : Nat) (e : EncSt) (y : Nat)
    (h1 : e.prev ≠ bitShifterGet shift y)
    (h2 : diffIsValid (diffSub e.prev (bitShifterGet shift y)) = false)
    (h3 : tableRefer e.tab (tableHash (bitShifterGet shift y)) = bitShifterGet shift y) :
    encStep shift e y = (⟨bitShifterGet shift y, 0, e.tab⟩,
      (runLengthGet e.run).map Item.sub ++
        [Item.sub (tableGet (tableHash (bitShifterGet shift y)))]) := by
  simp [encStep, h1, h2, h3]

lemma encStep_raw (shift : Nat) (e : EncSt) (y : Nat)
    (h1 : e.prev ≠ bitShifterGet shift y)
    (h2 : diffIsValid (diffSub e.prev (bitShifterGet shift y)) = false)
    (h3 : tableRefer e.tab (tableHash (bitShifterGet shift y)) ≠ bitShifterGet shift y) :
    encStep shift e y = (⟨bitShifterGet shift y, 0,
        tableInsert e.tab (tableHash (bitShifterGet shift y)) (bitShifterGet shift y)⟩,
      (runLengthGet e.run).map Item.sub ++
        [Item.word (rawGet (bitShifterGet shift y))]) := by
  simp [encStep, h1, h2, h3]

lemma diffIsValid_elim (d : Int) (h : diffIsValid d = true) : d.natAbs ≤ 8 ∧ d ≠ 0 := by
  simpa [diffIsValid] using h

lemma runDigits_valid (r : Nat) : ∀ it ∈ (runLengthGet r).map Item.sub, validItem it := by
  intro it hit
  obtain ⟨v, hv, rfl⟩ := List.mem_map.mp hit
  show v ≤ 31
  have := runLengthGet_digits_lt r v hv
  omega

/-! Output length accounting for the encoder (claim C2) and the exact shape
of the flush (claim C7). -/

lemma flushWords_length : ∀ n temp, temp.length ≤ n →
    (flushWords temp).length = (temp.length + 2) / 3 := by
  intro n
  induction n with
  | zero =>
    intro temp hn
    have : temp = [] := List.eq_nil_of_length_eq_zero (by omega)
    subst this
    rfl
  | succ n ih =>
    intro temp hn
    match temp with
    | [] => rfl
    | [a] => simp [flushWords]
    | [a, b] => simp [flushWords]
    | a :: b :: c :: rest =>
      show (chunkerSet a b c :: flushWords rest).length = _
      rw [List.length_cons, ih rest (by simp at hn; omega)]
      simp only [List.length_cons]
      omega

lemma flushWords_packTriples : ∀ n temp, temp.length ≤ n →
    flushWords temp = packTriples (padToTriple temp) := by
  intro n
  induction n with
  | zero =>
    intro temp hn
    have : temp = [] := List.eq_nil_of_length_eq_zero (by omega)
    subst this
    rfl
  | succ n ih =>
    intro temp hn
    match temp with
    | [] => rfl
    | [a] => rfl
    | [a, b] => rfl
    | a :: b :: c :: rest =>
      show chunkerSet a b c :: flushWords rest = packTriples (padToTriple (a :: b :: c :: rest))
      have hpad : padToTriple (a :: b :: c :: rest) = a :: b :: c :: padToTriple rest := by
        simp only [padToTriple, List.length_cons, List.cons_append]
        have hmod : (rest.length + 1 + 1 + 1) % 3 = rest.length % 3 := by omega
        rw [hmod]
      rw [hpad]
      show chunkerSet a b c :: flushWords rest = chunkerSet a b c :: packTriples (padToTriple rest)
      rw [ih rest (by simp at hn; omega)]

lemma repoFoldl_length : ∀ (items : List Item) (buf temp : List Nat),
    ((repoFlush (items.foldl repoStep ⟨buf, temp⟩)).buffer).length
      ≤ buf.length + temp.length + items.length := by
  intro items
  induction items with
  | nil =>
    intro buf temp
    show (buf ++ flushWords temp).length ≤ _
    rw [List.length_append, flushWords_length temp.length temp (le_refl _)]
    simp only [List.length_nil]
    omega
  | cons it rest ih =>
    intro buf temp
    cases it with
    | sub v =>
      show ((repoFlush (rest.foldl repoStep ⟨buf, temp ++ [v]⟩)).buffer).length ≤ _
      have := ih buf (temp ++ [v])
      simp only [List.length_append, List.length_cons, List.length_nil] at this ⊢
      omega
    | word w =>
      show ((repoFlush (rest.foldl repoStep (repoSetWord ⟨buf, temp⟩ w))).buffer).length ≤ _
      rw [repoSetWord_eq buf temp w]
      have := ih (buf ++ flushWords temp ++ [w]) []
      have hfl : (flushWords temp).length = (temp.length + 2) / 3 :=
        flushWords_length temp.length temp (le_refl _)
      simp only [List.length_append, List.length_cons, List.length_nil] at this ⊢
      omega

lemma runLengthGet_length_le (l : Nat) : (runLengthGet l).length ≤ l := by
  induction l using Nat.strong_induction_on with
  | _ l ih =>
    by_cases h : l = 0
    · subst h
      simp [runLengthGet_zero]
    · rw [runLengthGet_pos l h]
      have hd : l >>> 3 < l := by
        rw [shr_eq_div]
        omega
      have := ih (l >>> 3) hd
      simp only [List.length_cons]
      omega

lemma encStep_items_le (shift : Nat) (e : EncSt) (y : Nat) :
    (encStep shift e y).2.length + (encStep shift e y).1.run ≤ e.run + 1 := by
  have hrl := runLengthGet_length_le e.run
  by_cases h1 : e.prev = bitShifterGet shift y
  · rw [encStep_run shift e y h1]
    simp
  · rcases Bool.eq_false_or_eq_true (diffIsValid (diffSub e.prev (bitShifterGet shift y)))
      with h2 | h2
    · rw [encStep_diffb shift e y h1 h2]
      simp only [List.length_append, List.length_map, List.length_cons, List.length_nil]
      omega
    · by_cases h3 : tableRefer e.tab (tableHash (bitShifterGet shift y)) = bitShifterGet shift y
      · rw [encStep_tabhit shift e y h1 h2 h3]
        simp only [List.length_append, List.length_map, List.length_cons, List.length_nil]
        omega
      · rw [encStep_raw shift e y h1 h2 h3]
        simp only [List.length_append, List.length_map, List.length_cons, List.length_nil]
        omega

lemma encProc_items_le : ∀ (ys : List Nat) (shift : Nat) (e : EncSt),
    (encProc shift e ys).2.length + (encProc shift e ys).1.run ≤ e.run + ys.length := by
  intro ys
  induction ys with
  | nil =>
    intro shift e
    simp [encProc]
  | cons y ys ih =>
    intro shift e
    show (encProc shift e (y :: ys)).2.length + _ ≤ _
    have hstep := encStep_items_le shift e y
    have hrest := ih shift (encStep shift e y).1
    simp only [encProc, List.length_append, List.length_cons]
    omega

lemma encode_length_le (Y : List Nat) : (encode Y).length ≤ Y.length := by
  rw [encode, repoRun]
  have h1 := repoFoldl_length (encItemsAll 1 encInit Y) [] []
  have h2 := encProc_items_le Y 1 encInit
  have h3 := runLengthGet_length_le (encProc 1 encInit Y).1.run
  simp only [List.length_nil] at h1
  rw [encItemsAll] at h1 ⊢
  simp only [List.length_append, List.length_map] at h1 ⊢
  have h4 : encInit.run = 0 := rfl
  omega

/-! Item validity: everything the encoder pushes is a well-formed item. -/

lemma encStep_items_valid (e : EncSt) (y : Nat) (hy : y < 65536) :
    ∀ it ∈ (encStep 1 e y).2, validItem it := by
  have hc : bitShifterGet 1 y ≤ 32767 := by
    rw [bitShifterGet, shr_eq_div]
    omega
  by_cases h1 : e.prev = bitShifterGet 1 y
  · rw [encStep_run 1 e y h1]
    simp
  · rcases Bool.eq_false_or_eq_true (diffIsValid (diffSub e.prev (bitShifterGet 1 y)))
      with h2 | h2
    · rw [encStep_diffb 1 e y h1 h2]
      intro it hit
      rcases List.mem_append.mp hit with h | h
      · exact runDigits_valid e.run it h
      · simp at h
        subst h
        show diffGet _ ≤ 31
        obtain ⟨ha, hz⟩ := diffIsValid_elim _ h2
        have := diffGet_bounds _ ha hz
        omega
    · by_cases h3 : tableRefer e.tab (tableHash (bitShifterGet 1 y)) = bitShifterGet 1 y
      · rw [encStep_tabhit 1 e y h1 h2 h3]
        intro it hit
        rcases List.mem_append.mp hit with h | h
        · exact runDigits_valid e.run it h
        · simp at h
          subst h
          show tableGet _ ≤ 31
          rw [tableGet_eq _ (tableHash_lt _)]
          have := tableHash_lt (bitShifterGet 1 y)
          omega
      · rw [encStep_raw 1 e y h1 h2 h3]
        intro it hit
        rcases List.mem_append.mp hit with h | h
        · exact runDigits_valid e.run it h
        · simp at h
          subst h
          exact ⟨bitShifterGet 1 y, hc, rfl⟩

lemma encProc_cons (shift : Nat) (e : EncSt) (y : Nat) (ys : List Nat) :
    encProc shift e (y :: ys) =
      ((encProc shift (encStep shift e y).1 ys).1,
       (encStep shift e y).2 ++ (encProc shift (encStep shift e y).1 ys).2) := rfl

lemma encItemsAll_cons (shift : Nat) (e : EncSt) (y : Nat) (ys : List Nat) :
    encItemsAll shift e (y :: ys) =
      (encStep shift e y).2 ++ encItemsAll shift (encStep shift e y).1 ys := by
  simp [encItemsAll, encProc_cons, List.append_assoc]

lemma encItemsAll_valid : ∀ (ys : List Nat) (e : EncSt), (∀ y ∈ ys, y < 65536) →
    ∀ it ∈ encItemsAll 1 e ys, validItem it := by
  intro ys
  induction ys with
  | nil =>
    intro e hy it hit
    simp only [encItemsAll, encProc, List.nil_append] at hit
    exact runDigits_valid _ it hit
  | cons y ys ih =>
    intro e hy it hit
    rw [encItemsAll_cons] at hit
    rcases List.mem_append.mp hit with h | h
    · exact encStep_items_valid e y (hy y (by simp)) it h
    · exact ih (encStep 1 e y).1 (fun z hz => hy z (by simp [hz])) it h

/-! Output word shapes for the literal/packed disjointness claim. -/

lemma and_32768_eq_zero (x : Nat) (h : x < 32768) : x &&& 32768 = 0 := by
  have h2 : (32768 : Nat) = 2 ^ 15 := by norm_num
  rw [h2, Nat.and_two_pow, Nat.testBit_lt_two_pow (by omega)]
  rfl

lemma rawGet_and_32768 (c : Nat) (hc : c ≤ 32767) : rawGet c &&& 32768 ≠ 0 := by
  have h := rawIsValid_rawGet c hc
  simpa [rawIsValid] using h

lemma flushWords_shape : ∀ n temp, temp.length ≤ n → (∀ v ∈ temp, v ≤ 31) →
    ∀ w ∈ flushWords temp, wordIsPacked w := by
  intro n
  induction n with
  | zero =>
    intro temp hn hv
    have : temp = [] := List.eq_nil_of_length_eq_zero (by omega)
    subst this
    simp [flushWords]
  | succ n ih =>
    intro temp hn hv
    match temp with
    | [] => simp [flushWords]
    | [a] =>
      intro w hw
      simp only [flushWords, List.mem_singleton] at hw
      exact ⟨a, 0, 0, hv a (by simp), by omega, by omega, hw⟩
    | [a, b] =>
      intro w hw
      simp only [flushWords, List.mem_singleton] at hw
      exact ⟨a, b, 0, hv a (by simp), hv b (by simp), by omega, hw⟩
    | a :: b :: c :: rest =>
      intro w hw
      rcases List.mem_cons.mp hw with h | h
      · exact ⟨a, b, c, hv a (by simp), hv b (by simp), hv c (by simp), h⟩
      · exact ih rest (by simp at hn; omega) (fun v hvm => hv v (by simp [hvm])) w h

lemma repoFoldl_shape : ∀ (items : List Item) (buf temp : List Nat),
    (∀ v ∈ temp, v ≤ 31) → (∀ it ∈ items, validItem it) →
    (∀ w ∈ buf, wordIsPacked w ∨ wordIsLiteral w) →
    ∀ w ∈ (repoFlush (items.foldl repoStep ⟨buf, temp⟩)).buffer,
      wordIsPacked w ∨ wordIsLiteral w := by
  intro items
  induction items with
  | nil =>
    intro buf temp htemp hit hbuf w hw
    rcases List.mem_append.mp hw with h | h
    · exact hbuf w h
    · exact Or.inl (flushWords_shape temp.length temp (le_refl _) htemp w h)
  | cons it rest ih =>
    intro buf temp htemp hit hbuf
    cases it with
    | sub v =>
      show ∀ w ∈ (repoFlush (rest.foldl repoStep ⟨buf, temp ++ [v]⟩)).buffer, _
      refine ih buf (temp ++ [v]) ?_ (fun x hx => hit x (by simp [hx])) hbuf
      intro x hx
      rcases List.mem_append.mp hx with h | h
      · exact htemp x h
      · simp at h
        subst h
        exact hit (Item.sub x) (by simp)
    | word w0 =>
      obtain ⟨c, hc, hw0⟩ := hit (Item.word w0) (by simp)
      show ∀ w ∈ (repoFlush (rest.foldl repoStep (repoSetWord ⟨buf, temp⟩ w0))).buffer, _
      rw [repoSetWord_eq buf temp w0]
      refine ih (buf ++ flushWords temp ++ [w0]) [] (by simp)
        (fun x hx => hit x (by simp [hx])) ?_
      intro x hx
      rcases List.mem_append.mp hx with h | h
      · rcases List.mem_append.mp h with h2 | h2
        · exact hbuf x h2
        · exact Or.inl (flushWords_shape temp.length temp (le_refl _) htemp x h2)
      · simp at h
        subst h
        exact Or.inr ⟨c, hc, hw0⟩

/-! Helpers relating the decoder's emissions to the LSB-masked input. -/

lemma bitShifterSet_eq (c : Nat) (hc : c ≤ 32767) : bitShifterSet 1 c = 2 * c := by
  rw [bitShifterSet, shl_eq_mul]
  norm_num
  omega

lemma and_FFFE (y : Nat) (hy : y < 65536) : y &&& 0xFFFE = 2 * (y / 2) := by
  apply Nat.eq_of_testBit_eq
  intro i
  rw [Nat.testBit_land]
  have hsh : 2 * (y / 2) = (y >>> 1) <<< 1 := by
    have h1 : (2 : Nat) ^ 1 = 2 := by norm_num
    rw [shr_eq_div, shl_eq_mul, h1, Nat.mul_comm]
  cases i with
  | zero =>
    have hm : (65534 : Nat).testBit 0 = false := by decide
    have hr : ((y >>> 1) <<< 1).testBit 0 = false := by
      rw [Nat.testBit_shiftLeft]
      simp
    rw [hm, hsh, hr]
    simp
  | succ j =>
    have hmask : (65534 : Nat).testBit (j + 1) = decide (j < 15) := by
      have h1 : (65534 : Nat) = 32767 <<< 1 := by decide
      rw [h1, Nat.testBit_shiftLeft]
      have h3 : (32767 : Nat) = 2 ^ 15 - 1 := by norm_num
      rw [h3, Nat.testBit_two_pow_sub_one]
      simp
    have hrhs : ((y >>> 1) <<< 1).testBit (j + 1) = y.testBit (j + 1) := by
      rw [Nat.testBit_shiftLeft, Nat.testBit_shiftRight]
      simp [Nat.add_comm]
    rw [hmask, hsh, hrhs]
    by_cases hj : j < 15
    · simp [hj]
    · have hy2 : y < 2 ^ (j + 1) := by
        have : (65536 : Nat) = 2 ^ 16 := by norm_num
        calc y < 2 ^ 16 := by omega
          _ ≤ 2 ^ (j + 1) := Nat.pow_le_pow_right (by omega) (by omega)
      simp [hj, Nat.testBit_lt_two_pow hy2]

lemma emit_eq (y : Nat) (hy : y < 65536) :
    bitShifterSet 1 (bitShifterGet 1 y) = y &&& 0xFFFE := by
  have hc : bitShifterGet 1 y ≤ 32767 := by
    rw [bitShifterGet, shr_eq_div]
    omega
  rw [bitShifterSet_eq _ hc, and_FFFE y hy, bitShifterGet, shr_eq_div]
  norm_num

lemma processFlat_rl (vs : List Nat) (hvs : ∀ v ∈ vs, v < 8) : ∀ (toks : List FlatTok) (d : DecSt),
    processFlat (vs.map FlatTok.fsub ++ toks) d
      = processFlat toks ⟨d.prev, d.runVals ++ vs, d.tab, d.out⟩ := by
  induction vs with
  | nil =>
    intro toks d
    rcases d with ⟨p, rv, tb, o⟩
    simp
  | cons v vs ih =>
    intro toks d
    simp only [List.map_cons, List.cons_append, List.append_eq, processFlat]
    rw [subStep_rl d v (hvs v (by simp))]
    rw [ih (fun x hx => hvs x (by simp [hx])) toks]
    simp [List.append_assoc]

lemma processFlat_cons_sub (v : Nat) (toks : List FlatTok) (d : DecSt) :
    processFlat (FlatTok.fsub v :: toks) d = processFlat toks (subStep d v) := rfl

lemma processFlat_cons_lit (w : Nat) (toks : List FlatTok) (d : DecSt) :
    processFlat (FlatTok.flit w :: toks) d = processFlat toks (litStep d w) := rfl

lemma padStream_sub (t v : Nat) (r : List Item) :
    padStream t (Item.sub v :: r) = FlatTok.fsub v :: padStream (t + 1) r := rfl

lemma padStream_word (t w : Nat) (r : List Item) :
    padStream t (Item.word w :: r) =
      List.replicate ((3 - t % 3) % 3) (FlatTok.fsub 0) ++ FlatTok.flit w :: padStream 0 r := rfl

/-- The central simulation: from any aligned encoder/decoder state pair, the
decoder, run over the padded item stream the encoder will emit for the
remaining samples `ys`, ends with the encoder's final `previous` and table,
with an empty pending-run queue, and extends its output by the pending run's
expansion followed by the LSB-masked remaining samples. -/
lemma main_sim : ∀ (ys : List Nat) (e : EncSt) (d : DecSt) (t : Nat),
    (∀ y ∈ ys, y < 65536) → d.runVals = [] → d.prev = e.prev → d.tab = e.tab →
    runFlush (processFlat (padStream t (encItemsAll 1 e ys)) d)
      = ⟨(encProc 1 e ys).1.prev, [], (encProc 1 e ys).1.tab,
         d.out ++ List.replicate e.run (bitShifterSet 1 e.prev)
               ++ ys.map (fun y => y &&& 0xFFFE)⟩ := by
  intro ys
  induction ys with
  | nil =>
    intro e d t hy hrv hprev htab
    have hitems : encItemsAll 1 e [] = (runLengthGet e.run).map Item.sub := by
      simp [encItemsAll, encProc]
    rw [hitems, ← List.append_nil (List.map Item.sub (runLengthGet e.run)),
      padStream_subs (runLengthGet e.run) t []]
    have hrepl : padStream (t + (runLengthGet e.run).length) ([] : List Item)
        = (List.replicate ((3 - (t + (runLengthGet e.run).length) % 3) % 3) 0).map
            FlatTok.fsub := by
      simp [padStream, List.map_replicate]
    rw [hrepl, ← List.map_append,
      ← List.append_nil (List.map FlatTok.fsub (runLengthGet e.run ++
        List.replicate ((3 - (t + (runLengthGet e.run).length) % 3) % 3) 0))]
    rw [processFlat_rl _ (by
      intro v hv
      rcases List.mem_append.mp hv with h | h
      · exact runLengthGet_digits_lt e.run v h
      · simp at h
        omega) [] d]
    simp only [processFlat]
    rw [runFlush_eq]
    simp only [hrv, List.nil_append, runLengthSet_append_zeros, runLengthSet_get,
      hprev, htab, encProc, List.map_nil, List.append_nil]
  | cons y ys ih =>
    intro e d t hy hrv hprev htab
    have hy0 : y < 65536 := hy y (by simp)
    have hys : ∀ z ∈ ys, z < 65536 := fun z hz => hy z (by simp [hz])
    have hc : bitShifterGet 1 y ≤ 32767 := by
      rw [bitShifterGet, shr_eq_div]
      omega
    have hc6 : bitShifterGet 1 y < 65536 := by omega
    have hdig : ∀ v ∈ runLengthGet e.run, v < 8 := runLengthGet_digits_lt e.run
    rw [encItemsAll_cons]
    by_cases h1 : e.prev = bitShifterGet 1 y
    · -- run branch: nothing is emitted, the run counter grows
      rw [encStep_run 1 e y h1]
      dsimp only
      rw [List.nil_append]
      rw [ih ⟨e.prev, e.run + 1, e.tab⟩ d t hys hrv hprev htab]
      rw [encProc_cons, encStep_run 1 e y h1]
      dsimp only
      have hout : bitShifterSet 1 e.prev = y &&& 0xFFFE := by
        rw [h1]
        exact emit_eq y hy0
      rw [hout, List.replicate_succ']
      simp [List.append_assoc]
    · rcases Bool.eq_false_or_eq_true
        (diffIsValid (diffSub e.prev (bitShifterGet 1 y))) with h2 | h2
      · -- differential branch
        obtain ⟨hna, hnz⟩ := diffIsValid_elim _ h2
        obtain ⟨hdv1, hdv2⟩ := diffGet_bounds _ hna hnz
        rw [encStep_diffb 1 e y h1 h2]
        dsimp only
        rw [List.append_assoc, List.singleton_append, padStream_subs, padStream_sub,
          processFlat_rl (runLengthGet e.run) hdig, processFlat_cons_sub]
        rw [subStep_diff _ _ hdv1 hdv2]
        dsimp only
        rw [diffSet_diffGet _ hna hnz, hprev, diffAdd_sub e.prev (bitShifterGet 1 y) hc6,
          hrv, List.nil_append, runLengthSet_get, emit_eq y hy0, htab]
        rw [ih ⟨bitShifterGet 1 y, 0, e.tab⟩
          ⟨bitShifterGet 1 y, [], e.tab,
            (d.out ++ List.replicate e.run (bitShifterSet 1 e.prev)) ++ [y &&& 0xFFFE]⟩
          (t + (runLengthGet e.run).length + 1) hys rfl rfl rfl]
        rw [encProc_cons, encStep_diffb 1 e y h1 h2]
        dsimp only
        simp [List.append_assoc]
      · by_cases h3 : tableRefer e.tab (tableHash (bitShifterGet 1 y)) = bitShifterGet 1 y
        · -- table-hit branch
          have hh := tableHash_lt (bitShifterGet 1 y)
          have hv8 : 8 ≤ tableGet (tableHash (bitShifterGet 1 y)) := by
            rw [tableGet_eq _ hh]
            omega
          have hv16 : tableGet (tableHash (bitShifterGet 1 y)) < 16 := by
            rw [tableGet_eq _ hh]
            omega
          rw [encStep_tabhit 1 e y h1 h2 h3]
          dsimp only
          rw [List.append_assoc, List.singleton_append, padStream_subs, padStream_sub,
            processFlat_rl (runLengthGet e.run) hdig, processFlat_cons_sub]
          rw [subStep_tab _ _ hv8 hv16]
          dsimp only
          rw [tableSet_tableGet _ hh, htab, h3, hprev, hrv, List.nil_append,
            runLengthSet_get, emit_eq y hy0]
          rw [ih ⟨bitShifterGet 1 y, 0, e.tab⟩
            ⟨bitShifterGet 1 y, [], e.tab,
              (d.out ++ List.replicate e.run (bitShifterSet 1 e.prev)) ++ [y &&& 0xFFFE]⟩
            (t + (runLengthGet e.run).length + 1) hys rfl rfl rfl]
          rw [encProc_cons, encStep_tabhit 1 e y h1 h2 h3]
          dsimp only
          simp [List.append_assoc]
        · -- raw-literal branch
          rw [encStep_raw 1 e y h1 h2 h3]
          dsimp only
          rw [List.append_assoc, List.singleton_append, padStream_subs, padStream_word,
            processFlat_rl (runLengthGet e.run) hdig]
          have hmap : List.replicate ((3 - (t + (runLengthGet e.run).length) % 3) % 3)
              (FlatTok.fsub 0)
              = (List.replicate ((3 - (t + (runLengthGet e.run).length) % 3) % 3) 0).map
                  FlatTok.fsub := by
            simp
          rw [hmap]
          rw [processFlat_rl (List.replicate _ 0) (by
            intro v hv
            have := List.eq_of_mem_replicate hv
            omega)]
          dsimp only
          rw [processFlat_cons_lit, litStep_eq]
          dsimp only
          rw [rawSet_rawGet _ hc, hprev, hrv, List.nil_append,
            runLengthSet_append_zeros, runLengthSet_get, emit_eq y hy0, htab]
          rw [ih ⟨bitShifterGet 1 y, 0,
              tableInsert e.tab (tableHash (bitShifterGet 1 y)) (bitShifterGet 1 y)⟩
            ⟨bitShifterGet 1 y, [],
              tableInsert e.tab (tableHash (bitShifterGet 1 y)) (bitShifterGet 1 y),
              (d.out ++ List.replicate e.run (bitShifterSet 1 e.prev)) ++ [y &&& 0xFFFE]⟩
            0 hys rfl rfl rfl]
          rw [encProc_cons, encStep_raw 1 e y h1 h2 h3]
          dsimp only
          simp [List.append_assoc]

/-! Top-level corollaries of the simulation. -/

lemma flattenWords_encode (Y : List Nat) (hY : ∀ y ∈ Y, y < 65536) :
    flattenWords (encode Y) = padStream 0 (encItemsAll 1 encInit Y) := by
  rw [encode]
  exact repoRun_flatten _ (encItemsAll_valid Y encInit hY)

lemma decode_encode (Y : List Nat) (hY : ∀ y ∈ Y, y < 65536) :
    decode (encode Y) = Y.map (fun y => y &&& 0xFFFE) := by
  rw [decode_processFlat, flattenWords_encode Y hY,
    main_sim Y encInit decInit 0 hY rfl rfl rfl]
  simp [decInit, encInit]

lemma decode_encode_table (Y : List Nat) (hY : ∀ y ∈ Y, y < 65536) :
    (runFlush (decodeLoop [] (encode Y) decInit)).tab = (encProc 1 encInit Y).1.tab := by
  rw [decodeLoop_processFlat]
  simp only [List.map_nil, List.nil_append]
  rw [flattenWords_encode Y hY, main_sim Y encInit decInit 0 hY rfl rfl rfl]

lemma subStep_tab_preserved (d : DecSt) (v : Nat) : (subStep d v).tab = d.tab := by
  simp only [subStep]
  split_ifs <;> simp [runFlush_eq]

lemma litStep_tab (d : DecSt) (w : Nat) :
    (litStep d w).tab = tableInsert d.tab (tableHash (rawSet w)) (rawSet w) := by
  rw [litStep_eq]

lemma encStep_insert_iff (e : EncSt) (y : Nat) :
    ((encStep 1 e y).1.tab = e.tab ∧ ∀ w, Item.word w ∉ (encStep 1 e y).2)
    ∨ ((encStep 1 e y).1.tab
          = tableInsert e.tab (tableHash (bitShifterGet 1 y)) (bitShifterGet 1 y)
       ∧ Item.word (rawGet (bitShifterGet 1 y)) ∈ (encStep 1 e y).2) := by
  by_cases h1 : e.prev = bitShifterGet 1 y
  · rw [encStep_run 1 e y h1]
    exact Or.inl ⟨rfl, by simp⟩
  · rcases Bool.eq_false_or_eq_true
      (diffIsValid (diffSub e.prev (bitShifterGet 1 y))) with h2 | h2
    · rw [encStep_diffb 1 e y h1 h2]
      refine Or.inl ⟨rfl, ?_⟩
      intro w hw
      rcases List.mem_append.mp hw with h | h
      · obtain ⟨v, _, hv⟩ := List.mem_map.mp h
        exact Item.noConfusion hv
      · simp at h
    · by_cases h3 : tableRefer e.tab (tableHash (bitShifterGet 1 y)) = bitShifterGet 1 y
      · rw [encStep_tabhit 1 e y h1 h2 h3]
        refine Or.inl ⟨rfl, ?_⟩
        intro w hw
        rcases List.mem_append.mp hw with h | h
        · obtain ⟨v, _, hv⟩ := List.mem_map.mp h
          exact Item.noConfusion hv
        · simp at h
      · rw [encStep_raw 1 e y h1 h2 h3]
        exact Or.inr ⟨rfl, by simp⟩

/-! Claim theorems. -/

/-- C1: for every input sequence `Y` of 16-bit samples, with the default
internal shift of 1, decoding the encoder's output (with `output_size =
len Y`, which in the source only sizes the buffer) produces exactly `len Y`
samples with sample `i` equal to `Y[i] &&& 0xFFFE`; in particular,
15-bit-clean inputs round-trip exactly. -/
theorem claim_C1_roundtrip (Y : List Nat) (hY : ∀ y ∈ Y, y < 65536) :
    decode (encode Y) = Y.map (fun y => y &&& 0xFFFE)
    ∧ (decode (encode Y)).length = Y.length
    ∧ ((∀ y ∈ Y, y % 2 = 0) → decode (encode Y) = Y) := by
  have h := decode_encode Y hY
  refine ⟨h, by rw [h]; simp, ?_⟩
  intro hclean
  rw [h]
  have hid : ∀ y ∈ Y, y &&& 0xFFFE = y := by
    intro y hy
    rw [and_FFFE y (hY y hy)]
    have := hclean y hy
    omega
  calc Y.map (fun y => y &&& 0xFFFE) = Y.map id := List.map_congr_left hid
    _ = Y := List.map_id Y

/-- C1 witness: the round-trip theorem applied to a concrete 16-bit input,
including a run, a table-hit candidate and an odd sample. -/
theorem claim_C1_roundtrip_witness :
    (∀ y ∈ ([0x1234, 0x1234, 0x0002, 0xFFFF] : List Nat), y < 65536)
    ∧ (decode (encode [0x1234, 0x1234, 0x0002, 0xFFFF])
        = [0x1234, 0x1234, 0x0002, 0xFFFF].map (fun y => y &&& 0xFFFE)
      ∧ (decode (encode [0x1234, 0x1234, 0x0002, 0xFFFF])).length
        = ([0x1234, 0x1234, 0x0002, 0xFFFF] : List Nat).length
      ∧ ((∀ y ∈ ([0x1234, 0x1234, 0x0002, 0xFFFF] : List Nat), y % 2 = 0) →
          decode (encode [0x1234, 0x1234, 0x0002, 0xFFFF])
            = [0x1234, 0x1234, 0x0002, 0xFFFF])) :=
  ⟨by decide, claim_C1_roundtrip [0x1234, 0x1234, 0x0002, 0xFFFF] (by decide)⟩

/-- C2: for every input of length `size`, the encoder emits at most `size`
16-bit container words, so every `buffer_[counter_++]` write (the buffer is
constructed with `maxSize = size`) stays in bounds and the returned size
never exceeds the input size. -/
theorem claim_C2_output_bound (Y : List Nat) : (encode Y).length ≤ Y.length :=
  encode_length_le Y

/-- C3 counterexample: the source decoder has no error channel at all — its
result is just the repository contents — and on an input whose words are
exhausted before `output_size = 1` samples were emitted it returns the
shorter (empty) output normally instead of reporting a fatal decode error. -/
theorem claim_C3_no_error_counterexample : decode [] = [] ∧ (decode []).length < 1 := by
  decide

/-- C3 as amended: when the decoder's input words are exhausted before
`output_size` samples have been emitted, the decoder terminates normally and
returns only the samples emitted so far (fewer than `output_size`); no error
is reported.  Exhibited on the empty stream for every positive requested
size. -/
theorem claim_C3_short_output (os : Nat) (h : 0 < os) :
    (decode []).length < os ∧ decode [] = [] := by
  have h0 : decode [] = [] := rfl
  refine ⟨?_, h0⟩
  rw [h0]
  simpa using h

/-- C3 witness: the amended statement at `output_size = 1`. -/
theorem claim_C3_short_output_witness :
    0 < 1 ∧ ((decode []).length < 1 ∧ decode [] = []) :=
  ⟨by decide, claim_C3_short_output 1 (by decide)⟩

/-- C4: for every delta with `1 ≤ |d| ≤ 8`, the Differential sub-codeword
round-trips: Get biases the delta (`d + 8` if negative, else `d + 7`) and ORs
in the tag `0x10`, and Set inverts it, so `Set (Get d) = d`. -/
theorem claim_C4_diff_roundtrip (d : Int) (h1 : 1 ≤ d.natAbs) (h8 : d.natAbs ≤ 8) :
    diffGet d = (if d < 0 then d + 8 else d + 7).toNat ||| 0x10
    ∧ diffSet (diffGet d) = d := by
  have hz : d ≠ 0 := by omega
  constructor
  · rw [diffGet_eq d h8 hz]
    have hb : (if d < 0 then d + 8 else d + 7).toNat ≤ 15 := by
      split_ifs <;> omega
    rw [lor_sixteen _ hb]
  · exact diffSet_diffGet d h8 hz

/-- C4 witness: the differential round-trip at `d = -3` (the spec's own
worked example, `Get (-3) = 0x15`). -/
theorem claim_C4_diff_roundtrip_witness :
    (1 ≤ (-3 : Int).natAbs ∧ (-3 : Int).natAbs ≤ 8)
    ∧ (diffGet (-3) = (if (-3 : Int) < 0 then (-3 : Int) + 8 else (-3 : Int) + 7).toNat ||| 0x10
       ∧ diffSet (diffGet (-3)) = -3) :=
  ⟨⟨by decide, by decide⟩, claim_C4_diff_roundtrip (-3) (by decide) (by decide)⟩

/-- C5: for every `n ≥ 0`, `RunLength.Set (RunLength.Get n) = n`: Get splits
`n` into little-endian base-8 digits each tagged `00`, and Set reassembles
them by ORing the low 3 bits at shifts 0, 3, 6, … in list order. -/
theorem claim_C5_runlength_roundtrip (n : Nat) :
    runLengthSet (runLengthGet n) = n
    ∧ ∀ v ∈ runLengthGet n, rlCheckHeader v = true := by
  refine ⟨runLengthSet_get n, ?_⟩
  intro v hv
  exact (class_lt8 v (runLengthGet_digits_lt n v hv)).1

/-- C6: every word the encoder writes is either a literal container with
bit 15 set (a `Raw15bit.Get` image) or a packed triple of three 5-bit
sub-codewords with bit 15 clear (`Chunker.Set` never sets bit 15 on values
at most `0x1F`); the two forms are disjoint on every output word. -/
theorem claim_C6_word_disjointness (Y : List Nat) (hY : ∀ y ∈ Y, y < 65536) :
    ∀ w ∈ encode Y,
      (w &&& 0x8000 = 0 ∧ wordIsPacked w) ∨ (w &&& 0x8000 ≠ 0 ∧ wordIsLiteral w) := by
  intro w hw
  rw [encode, repoRun] at hw
  have hshape := repoFoldl_shape (encItemsAll 1 encInit Y) [] [] (by simp)
    (encItemsAll_valid Y encInit hY) (by simp) w hw
  rcases hshape with ⟨a, b, c, ha, hb, hc, rfl⟩ | ⟨s, hs, rfl⟩
  · exact Or.inl ⟨and_32768_eq_zero _ (by have := chunkerSet_le a b c ha hb hc; omega),
      a, b, c, ha, hb, hc, rfl⟩
  · exact Or.inr ⟨rawGet_and_32768 s hs, s, hs, rfl⟩

/-- C6 witness: the disjointness statement on a concrete input that produces
both a literal and a packed container. -/
theorem claim_C6_word_disjointness_witness :
    (∀ y ∈ ([0x1234, 0x1234, 0x1234] : List Nat), y < 65536)
    ∧ ∀ w ∈ encode [0x1234, 0x1234, 0x1234],
        (w &&& 0x8000 = 0 ∧ wordIsPacked w) ∨ (w &&& 0x8000 ≠ 0 ∧ wordIsLiteral w) :=
  ⟨by decide, claim_C6_word_disjointness [0x1234, 0x1234, 0x1234] (by decide)⟩

/-- C7: pushing a 16-bit literal into the repository while sub-codewords are
pending first flushes the pending queue into packed containers (so the
literal lands after them, preserving relative order), and a partial group of
one or two trailing sub-codewords is zero-padded into a single packed
container: the flush emits exactly `ceil (pending / 3)` containers, equal to
packing the zero-padded queue in triples. -/
theorem claim_C7_flush_before_literal (buf temp : List Nat) (v : Nat) (h : temp ≠ []) :
    repoSetWord ⟨buf, temp⟩ v = ⟨buf ++ flushWords temp ++ [v], []⟩
    ∧ flushWords temp = packTriples (padToTriple temp)
    ∧ (flushWords temp).length = (temp.length + 2) / 3 :=
  ⟨repoSetWord_eq buf temp v,
   flushWords_packTriples temp.length temp (le_refl _),
   flushWords_length temp.length temp (le_refl _)⟩

/-- C7 witness: one pending sub-codeword and an incoming literal word. -/
theorem claim_C7_flush_before_literal_witness :
    (([5] : List Nat) ≠ [])
    ∧ (repoSetWord ⟨[], [5]⟩ 0x8001 = ⟨[] ++ flushWords [5] ++ [0x8001], []⟩
       ∧ flushWords [5] = packTriples (padToTriple [5])
       ∧ (flushWords [5]).length = (([5] : List Nat).length + 2) / 3) :=
  ⟨by decide, claim_C7_flush_before_literal [] [5] 0x8001 (by decide)⟩

/-- C8: the encoder inserts into its hash table exactly when it emits a raw
literal (all other branches leave the table unchanged and emit no literal);
the decoder inserts exactly when it consumes a literal container (sub-codeword
processing never touches the table, literal processing inserts the literal's
15-bit value at its hash); and for every input, after decoding the encoder's
output the two tables are identical. -/
theorem claim_C8_table_sync :
    (∀ (d : DecSt) (v : Nat), (subStep d v).tab = d.tab)
    ∧ (∀ (d : DecSt) (w : Nat),
        (litStep d w).tab = tableInsert d.tab (tableHash (rawSet w)) (rawSet w))
    ∧ (∀ (e : EncSt) (y : Nat),
        ((encStep 1 e y).1.tab = e.tab ∧ ∀ w, Item.word w ∉ (encStep 1 e y).2)
        ∨ ((encStep 1 e y).1.tab
              = tableInsert e.tab (tableHash (bitShifterGet 1 y)) (bitShifterGet 1 y)
           ∧ Item.word (rawGet (bitShifterGet 1 y)) ∈ (encStep 1 e y).2))
    ∧ (∀ (Y : List Nat), (∀ y ∈ Y, y < 65536) →
        (runFlush (decodeLoop [] (encode Y) decInit)).tab = (encProc 1 encInit Y).1.tab) :=
  ⟨subStep_tab_preserved, litStep_tab, encStep_insert_iff,
   fun Y hY => decode_encode_table Y hY⟩

/-- C8 witness: the end-to-end table equality applied to a concrete input. -/
theorem claim_C8_table_sync_witness :
    (∀ y ∈ ([2, 4, 2] : List Nat), y < 65536)
    ∧ (runFlush (decodeLoop [] (encode [2, 4, 2]) decInit)).tab
        = (encProc 1 encInit [2, 4, 2]).1.tab :=
  ⟨by decide, claim_C8_table_sync.2.2.2 [2, 4, 2] (by decide)⟩

/-- C9: for every 16-bit input sample and every shift at least 1, the
downshifted first sample is at most `0x7FFF`, hence differs from the initial
`previous` value `0xFFFF` and from every initial table entry (all `0xFFFF`),
so the encoder's first iteration takes the raw-literal branch: it never
starts a run at index 0 and never takes a table hit on the first sample. -/
theorem claim_C9_first_sample (shift y : Nat) (hs : 1 ≤ shift) (hy : y < 65536) :
    bitShifterGet shift y ≤ 0x7FFF
    ∧ bitShifterGet shift y ≠ encInit.prev
    ∧ (∀ h < 8, tableRefer encInit.tab h ≠ bitShifterGet shift y)
    ∧ encStep shift encInit y
        = (⟨bitShifterGet shift y, 0,
            tableInsert encInit.tab (tableHash (bitShifterGet shift y))
              (bitShifterGet shift y)⟩,
           [Item.word (rawGet (bitShifterGet shift y))]) := by
  have hc : bitShifterGet shift y ≤ 32767 := by
    rw [bitShifterGet, shr_eq_div]
    have h2 : (2 : Nat) ≤ 2 ^ shift := by
      calc (2 : Nat) = 2 ^ 1 := by norm_num
        _ ≤ 2 ^ shift := Nat.pow_le_pow_right (by omega) hs
    have hdd : y / 2 ^ shift ≤ y / 2 := Nat.div_le_div_left h2 (by omega)
    omega
  have hprev : encInit.prev = 65535 := rfl
  have hne : bitShifterGet shift y ≠ encInit.prev := by
    rw [hprev]
    omega
  have htabinit : ∀ h < 8, tableRefer encInit.tab h ≠ bitShifterGet shift y := by
    intro h hh
    rw [show encInit.tab = tableInit from rfl, tableRefer_init h hh]
    omega
  refine ⟨hc, hne, htabinit, ?_⟩
  have h2 : diffIsValid (diffSub encInit.prev (bitShifterGet shift y)) = false := by
    have habs : (diffSub encInit.prev (bitShifterGet shift y)).natAbs > 8 := by
      rw [diffSub, hprev]
      omega
    simp [diffIsValid]
    omega
  have h3 : tableRefer encInit.tab (tableHash (bitShifterGet shift y))
      ≠ bitShifterGet shift y :=
    htabinit (tableHash (bitShifterGet shift y)) (tableHash_lt _)
  rw [encStep_raw shift encInit y (fun hcontra => hne hcontra.symm) h2 h3]
  have hrun : encInit.run = 0 := rfl
  rw [hrun, runLengthGet_zero]
  simp

/-- C9 witness: the first-sample property at shift 1 on sample `0x1234`. -/
theorem claim_C9_first_sample_witness :
    (1 ≤ 1 ∧ 0x1234 < 65536)
    ∧ (bitShifterGet 1 0x1234 ≤ 0x7FFF
       ∧ bitShifterGet 1 0x1234 ≠ encInit.prev
       ∧ (∀ h < 8, tableRefer encInit.tab h ≠ bitShifterGet 1 0x1234)
       ∧ encStep 1 encInit 0x1234
           = (⟨bitShifterGet 1 0x1234, 0,
               tableInsert encInit.tab (tableHash (bitShifterGet 1 0x1234))
                 (bitShifterGet 1 0x1234)⟩,
              [Item.word (rawGet (bitShifterGet 1 0x1234))])) :=
  ⟨⟨by decide, by decide⟩, claim_C9_first_sample 1 0x1234 (by decide) (by decide)⟩

/-- C10 counterexample: run encoding itself produces zero-valued run-length
sub-codewords: `RunLength.Get 8 = [0, 1]` contains the digit 0 (tag `00`),
and it reaches the encoder's output — for nine equal samples the second
output word is the packed container `0x20`, whose first sub-codeword is that
zero digit, not repository padding. -/
theorem claim_C10_zero_digit_counterexample :
    (0 : Nat) ∈ runLengthGet 8
    ∧ encode [2, 2, 2, 2, 2, 2, 2, 2, 2] = [0x8001, 0x20]
    ∧ chunkerGet1 0x20 = 0 ∧ rlCheckHeader 0 = true := by
  decide

/-- C10 as amended: for every `L ≥ 1`, `RunLength.Get L` is nonempty, every
digit passes `RunLength.CheckHeader` (tag `00`), the last (most-significant)
digit is nonzero, and `RunLength.Get 0 = []`; however, zero digits may occur
in non-final positions, so zero-valued run-length sub-codewords in the
encoder's output can come from run encoding as well as from padding. -/
theorem claim_C10_digit_shape (L : Nat) (h : 1 ≤ L) :
    runLengthGet 0 = []
    ∧ runLengthGet L ≠ []
    ∧ (∀ v ∈ runLengthGet L, rlCheckHeader v = true)
    ∧ (runLengthGet L).getLast? ≠ some 0 :=
  ⟨runLengthGet_zero, runLengthGet_ne_nil L h,
   fun v hv => (class_lt8 v (runLengthGet_digits_lt L v hv)).1,
   runLengthGet_getLast L h⟩

/-- C10 witness: the digit-shape statement at `L = 8`. -/
theorem claim_C10_digit_shape_witness :
    1 ≤ 8
    ∧ (runLengthGet 0 = []
       ∧ runLengthGet 8 ≠ []
       ∧ (∀ v ∈ runLengthGet 8, rlCheckHeader v = true)
       ∧ (runLengthGet 8).getLast? ≠ some 0) :=
  ⟨by decide, claim_C10_digit_shape 8 (by decide)⟩

end QOI15
